import Mathlib

/-!
Verification of the PAI Multi-Device Sync pack (synchronization orchestration
engine): redaction engine, pre-transmission PII gate, timestamp-based conflict
resolver, pending-push queue, and the session-start / session-end hook
protocols.

Strings are modelled as `String` / `List Char`; the JavaScript regular
expressions of the source are translated into executable character-list
matchers with the same match semantics (existence of a match).  File-system
and git side effects are modelled by explicit state passing: each hook entry
point becomes a pure function from an environment record (configuration
flags, outcomes of the external git operations, initial file contents) to a
result record describing the observable effects (exit code, queue contents,
files written, commands run).
-/

/-! ## Generic list-of-characters helpers -/

/-- Substring test: does `needle` occur contiguously inside `hay`?
Models JavaScript `hay.includes(needle)`. -/
def hasSub (needle : List Char) : List Char → Bool
  | [] => needle.isEmpty
  | c :: cs => needle.isPrefixOf (c :: cs) || hasSub needle cs

/-- Convenience wrapper of `hasSub` on `String`s. -/
def strContains (hay needle : String) : Bool := hasSub needle.data hay.data

/-- Split `hay` at the first occurrence of `needle`: returns the part before
the occurrence and the part after it.  Models a leftmost regex literal
search. -/
def splitFirst (needle : List Char) : List Char → Option (List Char × List Char)
  | [] => if needle.isEmpty then some ([], []) else none
  | c :: cs =>
    if needle.isPrefixOf (c :: cs) then some ([], (c :: cs).drop needle.length)
    else (splitFirst needle cs).map (fun p => (c :: p.1, p.2))

theorem isPrefixOf_eq_true_iff {l₁ l₂ : List Char} :
    l₁.isPrefixOf l₂ = true ↔ ∃ t, l₂ = l₁ ++ t := by
  rw [List.isPrefixOf_iff_prefix]
  exact ⟨fun ⟨t, h⟩ => ⟨t, h.symm⟩, fun ⟨t, h⟩ => ⟨t, h.symm⟩⟩

theorem hasSub_iff {needle hay : List Char} :
    hasSub needle hay = true ↔ ∃ a b, hay = a ++ needle ++ b := by
  induction hay with
  | nil =>
    simp only [hasSub, List.isEmpty_iff]
    constructor
    · rintro rfl; exact ⟨[], [], rfl⟩
    · rintro ⟨a, b, h⟩
      rcases List.append_eq_nil.mp (List.append_eq_nil.mp h.symm).1 with ⟨-, h2⟩
      exact h2
  | cons c cs ih =>
    simp only [hasSub, Bool.or_eq_true, ih, isPrefixOf_eq_true_iff]
    constructor
    · rintro (⟨t, ht⟩ | ⟨a, b, hab⟩)
      · exact ⟨[], t, by simpa using ht⟩
      · exact ⟨c :: a, b, by simp [hab]⟩
    · rintro ⟨a, b, hab⟩
      cases a with
      | nil => exact Or.inl ⟨b, by simpa using hab⟩
      | cons a0 as =>
        right
        refine ⟨as, b, ?_⟩
        have := congrArg List.tail hab
        simpa using this

theorem splitFirst_sound {needle hay a b : List Char}
    (h : splitFirst needle hay = some (a, b)) : hay = a ++ needle ++ b := by
  induction hay generalizing a with
  | nil =>
    simp only [splitFirst] at h
    split at h
    · next he =>
      simp only [Option.some.injEq, Prod.mk.injEq] at h
      rcases h with ⟨rfl, rfl⟩
      simp [List.isEmpty_iff.mp he]
    · exact absurd h (by simp)
  | cons c cs ih =>
    simp only [splitFirst] at h
    split at h
    · next hp =>
      simp only [Option.some.injEq, Prod.mk.injEq] at h
      rcases h with ⟨rfl, rfl⟩
      rcases isPrefixOf_eq_true_iff.mp hp with ⟨t, ht⟩
      simp only [ht, List.nil_append]
      rw [List.drop_append_eq_append_drop]
      simp
    · next hp =>
      cases hsp : splitFirst needle cs with
      | none => rw [hsp] at h; exact absurd h (by simp)
      | some p =>
        rw [hsp] at h
        simp only [Option.map, Option.some.injEq, Prod.mk.injEq] at h
        rcases h with ⟨h1, rfl⟩
        rcases p with ⟨a', b'⟩
        simp only at h1
        subst h1
        simp [ih hsp]

theorem splitFirst_none {needle hay : List Char}
    (h : splitFirst needle hay = none) : ∀ a b, hay ≠ a ++ needle ++ b := by
  induction hay with
  | nil =>
    intro a b hab
    simp only [splitFirst] at h
    split at h
    · exact absurd h (by simp)
    · next he =>
      rcases List.append_eq_nil.mp (List.append_eq_nil.mp hab.symm).1 with ⟨-, h2⟩
      simp [h2, List.isEmpty_nil] at he
  | cons c cs ih =>
    intro a b hab
    simp only [splitFirst] at h
    split at h
    · exact absurd h (by simp)
    · next hp =>
      cases a with
      | nil =>
        simp only [List.nil_append] at hab
        exact absurd (isPrefixOf_eq_true_iff.mpr ⟨b, hab⟩) (by simp [hp])
      | cons a0 as =>
        cases hsp : splitFirst needle cs with
        | none =>
          have : cs = as ++ needle ++ b := by
            have := congrArg List.tail hab; simpa using this
          exact ih hsp as b this
        | some p => simp [hsp] at h

/-! ## Redaction Engine (Scripts/redact-pii.ts)

The marker pattern of the source is the JavaScript regex
`\[PII:(\w+)\](.*?)\[\/PII:\1\]` with flags `gs`, replaced by
`[REDACTED:<type>]`.  `redactPII` below implements exactly the semantics of
`String.prototype.replace` with a global regex: repeatedly find the leftmost
match (maximal word run for `(\w+)` because `]` is not a word character,
earliest closing marker for the lazy `(.*?)`), substitute the redacted
token, and continue scanning after the match. -/

/-- JavaScript `\w`: ASCII letters, digits and underscore. -/
def wordChar (c : Char) : Bool := c.isAlphanum || c = '_'

/-- The opening marker `[PII:TYPE]`. -/
def piiOpen (ty : List Char) : List Char := "[PII:".data ++ ty ++ [']']

/-- The closing marker `[/PII:TYPE]`. -/
def piiClose (ty : List Char) : List Char := "[/PII:".data ++ ty ++ [']']

/-- The replacement token `[REDACTED:TYPE]`. -/
def redactedToken (ty : List Char) : List Char := "[REDACTED:".data ++ ty ++ [']']

/-- Match the marker regex at the start of `l`: on success returns the
captured type, the captured value and the text after the whole match. -/
def matchPIIAt (l : List Char) : Option (List Char × List Char × List Char) :=
  if "[PII:".data.isPrefixOf l then
    let rest := l.drop 5
    let ty := rest.takeWhile wordChar
    let rest2 := rest.dropWhile wordChar
    if ty.isEmpty then none
    else
      match rest2 with
      | ']' :: body =>
        match splitFirst (piiClose ty) body with
        | some (v, post) => some (ty, v, post)
        | none => none
      | _ => none
  else none

/-- Leftmost match of the marker regex in `l`: returns the text before the
match, the captured type and value, and the text after the match. -/
def findPII : List Char → Option (List Char × List Char × List Char × List Char)
  | [] => none
  | c :: cs =>
    match matchPIIAt (c :: cs) with
    | some (ty, v, post) => some ([], ty, v, post)
    | none =>
      match findPII cs with
      | some (pre, ty, v, post) => some (c :: pre, ty, v, post)
      | none => none

/-- A well-formed captured type: nonempty, all word characters. -/
def TyOK (ty : List Char) : Prop := ty ≠ [] ∧ ∀ c ∈ ty, wordChar c = true

theorem matchPIIAt_sound {l ty v post : List Char}
    (h : matchPIIAt l = some (ty, v, post)) :
    l = piiOpen ty ++ v ++ piiClose ty ++ post ∧ TyOK ty := by
  unfold matchPIIAt at h
  split at h
  · next hpre =>
    simp only at h
    split at h
    · exact absurd h (by simp)
    · next hty =>
      split at h
      · next body hbody =>
        cases hsp : splitFirst (piiClose ((l.drop 5).takeWhile wordChar)) body with
        | none => rw [hsp] at h; exact absurd h (by simp)
        | some p =>
          rw [hsp] at h
          rcases p with ⟨v', post'⟩
          simp only [Option.some.injEq, Prod.mk.injEq] at h
          rcases h with ⟨rfl, rfl, rfl⟩
          have hb := splitFirst_sound hsp
          rcases isPrefixOf_eq_true_iff.mp hpre with ⟨t, ht⟩
          have hdrop : l.drop 5 = t := by
            rw [ht]
            have h5 : ("[PII:".data).length = 5 := by decide
            rw [← h5, List.drop_left]
          rw [hdrop] at hbody hty hb ⊢
          rw [hb] at hbody
          constructor
          · rw [ht]
            conv_lhs => rw [← List.takeWhile_append_dropWhile (p := wordChar) (l := t)]
            rw [hbody]
            simp [piiOpen]
          · constructor
            · simpa [List.isEmpty_iff] using hty
            · intro c hc
              exact List.mem_takeWhile_imp hc
      · exact absurd h (by simp)
  · exact absurd h (by simp)

theorem matchPIIAt_post_lt {l ty v post : List Char}
    (h : matchPIIAt l = some (ty, v, post)) : post.length < l.length := by
  have := (matchPIIAt_sound h).1
  rw [this]
  simp [piiOpen, piiClose]
  omega

theorem findPII_post_lt {l pre ty v post : List Char}
    (h : findPII l = some (pre, ty, v, post)) : post.length < l.length := by
  induction l generalizing pre with
  | nil => simp [findPII] at h
  | cons c cs ih =>
    simp only [findPII] at h
    cases hm : matchPIIAt (c :: cs) with
    | some r =>
      rw [hm] at h
      rcases r with ⟨ty', v', post'⟩
      simp only [Option.some.injEq, Prod.mk.injEq] at h
      rcases h with ⟨rfl, rfl, rfl, rfl⟩
      exact matchPIIAt_post_lt hm
    | none =>
      rw [hm] at h
      cases hf : findPII cs with
      | none => rw [hf] at h; exact absurd h (by simp)
      | some r =>
        rw [hf] at h
        rcases r with ⟨pre', ty', v', post'⟩
        simp only [Option.some.injEq, Prod.mk.injEq] at h
        rcases h with ⟨rfl, rfl, rfl, rfl⟩
        have := ih hf
        simpa using Nat.lt_succ_of_lt this

/-- The redaction transform: JavaScript
`content.replace(PII_MARKER_PATTERN, (m, type) => "[REDACTED:" + type + "]")`. -/
def redactPII (l : List Char) : List Char :=
  match h : findPII l with
  | none => l
  | some (pre, ty, _v, post) => pre ++ redactedToken ty ++ redactPII post
termination_by l.length
decreasing_by exact findPII_post_lt h

/-- `redactPII` on `String`s, as exported by the redaction script. -/
def redactPIIStr (s : String) : String := ⟨redactPII s.data⟩

theorem redactPII_of_none {l : List Char} (h : findPII l = none) :
    redactPII l = l := by
  conv_lhs => unfold redactPII
  split
  · rfl
  · next heq => rw [h] at heq; exact absurd heq (by simp)

theorem redactPII_of_some {l pre ty v post : List Char}
    (h : findPII l = some (pre, ty, v, post)) :
    redactPII l = pre ++ redactedToken ty ++ redactPII post := by
  conv_lhs => unfold redactPII
  split
  · next heq => rw [h] at heq; exact absurd heq (by simp)
  · next pre' ty' v' post' heq =>
    rw [h] at heq
    simp only [Option.some.injEq, Prod.mk.injEq] at heq
    rcases heq with ⟨rfl, rfl, rfl, rfl⟩
    rfl

/-! ### Idempotence of the redaction transform

The key structural facts: the opening marker, the closing marker and the
replacement token all have the shape `'[' :: mid ++ [']']` with a
bracket-free `mid`, so distinct such blocks can never overlap partially
inside a string, and the replacement token can never be mistaken for a
marker. -/

theorem wordChar_lbracket : wordChar '[' = false := by decide

theorem wordChar_rbracket : wordChar ']' = false := by decide

/-- A bracket-free character list. -/
def Bfree (m : List Char) : Prop := '[' ∉ m ∧ ']' ∉ m

theorem bfree_of_word {ty : List Char} (h : ∀ c ∈ ty, wordChar c = true) :
    Bfree ty := by
  constructor
  · intro hm; have := h _ hm; rw [wordChar_lbracket] at this; exact absurd this (by simp)
  · intro hm; have := h _ hm; rw [wordChar_rbracket] at this; exact absurd this (by simp)

theorem bfree_append {a b : List Char} (ha : Bfree a) (hb : Bfree b) :
    Bfree (a ++ b) := by
  constructor
  · simp only [List.mem_append]; rintro (h | h)
    exacts [ha.1 h, hb.1 h]
  · simp only [List.mem_append]; rintro (h | h)
    exacts [ha.2 h, hb.2 h]

/-- Two bracket-closed blocks agreeing from the same start agree entirely. -/
theorem brfree_eq {m1 m2 P Q : List Char} (h1 : Bfree m1) (h2 : Bfree m2)
    (h : m1 ++ ']' :: P = m2 ++ ']' :: Q) : m1 = m2 ∧ P = Q := by
  induction m1 generalizing m2 with
  | nil =>
    cases m2 with
    | nil => simpa using h
    | cons c m2' =>
      simp only [List.nil_append, List.cons_append, List.cons.injEq] at h
      exact absurd (h.1 ▸ List.mem_cons_self c m2') (by
        intro hm; exact h2.2 (h.1 ▸ hm))
  | cons c m1' ih =>
    cases m2 with
    | nil =>
      simp only [List.cons_append, List.nil_append, List.cons.injEq] at h
      exact absurd (h.1 ▸ List.mem_cons_self c m1') (by
        intro hm; exact h1.2 (h.1 ▸ hm))
    | cons d m2' =>
      simp only [List.cons_append, List.cons.injEq] at h
      have h1' : Bfree m1' := ⟨fun hm => h1.1 (List.mem_cons_of_mem c hm),
        fun hm => h1.2 (List.mem_cons_of_mem c hm)⟩
      have h2' : Bfree m2' := ⟨fun hm => h2.1 (List.mem_cons_of_mem d hm),
        fun hm => h2.2 (List.mem_cons_of_mem d hm)⟩
      obtain ⟨he1, he2⟩ := ih h1' h2' h.2
      exact ⟨by rw [h.1, he1], he2⟩


/-- Where can a bracket-closed block `u = '[' :: mu ++ [']']` occur inside
`X ++ w ++ Z` when `w = '[' :: mw ++ [']']` is itself a bracket-closed
block?  Either entirely inside `X`, or entirely inside `Z`, or exactly
aligned with `w`. -/
theorem occ_around {mu mw X Z A B : List Char} (hu : Bfree mu) (hw : Bfree mw)
    (h : X ++ ('[' :: mw ++ [']']) ++ Z = A ++ ('[' :: mu ++ [']']) ++ B) :
    (∃ b, X = A ++ ('[' :: mu ++ [']']) ++ b ∧ B = b ++ ('[' :: mw ++ [']']) ++ Z) ∨
    (∃ a, A = X ++ ('[' :: mw ++ [']']) ++ a ∧ Z = a ++ ('[' :: mu ++ [']']) ++ B) ∨
    (A = X ∧ mu = mw ∧ B = Z) := by
  have h' : X ++ ('[' :: (mw ++ ']' :: Z)) = A ++ ('[' :: (mu ++ ']' :: B)) := by
    simpa [List.append_assoc] using h
  rcases List.append_eq_append_iff.mp h' with ⟨t, ht, hrest⟩ | ⟨t, ht, hrest⟩
  · -- A = X ++ t, and w-block ++ Z = t ++ (u-block ++ B)
    cases t with
    | nil =>
      simp only [List.nil_append, List.cons.injEq] at hrest
      obtain ⟨hmw, hZ⟩ := brfree_eq hw hu hrest.2
      exact Or.inr (Or.inr ⟨by simpa using ht, hmw.symm, hZ.symm⟩)
    | cons t0 t' =>
      simp only [List.cons_append, List.cons.injEq] at hrest
      obtain ⟨rfl, hrest2⟩ := hrest
      rcases List.append_eq_append_iff.mp hrest2 with ⟨s, hs, hz⟩ | ⟨s, hs, hz⟩
      · -- t' = mw ++ s and ']' :: Z = s ++ (u-block ++ B)
        cases s with
        | nil => simp at hz
        | cons s0 s' =>
          simp only [List.cons_append, List.cons.injEq] at hz
          obtain ⟨rfl, hz2⟩ := hz
          refine Or.inr (Or.inl ⟨s', ?_, ?_⟩)
          · rw [ht, hs]; simp
          · rw [hz2]; simp
      · -- mw = t' ++ s and u-block ++ B = s ++ ']' :: Z
        cases s with
        | nil => simp at hz
        | cons s0 s' =>
          exfalso
          have hs0 : s0 = '[' := by
            simp only [List.cons_append, List.cons.injEq] at hz
            exact hz.1.symm
          apply hw.1
          rw [hs, hs0]
          exact List.mem_append_right t' (List.mem_cons_self _ _)
  · -- X = A ++ t, and u-block ++ B = t ++ (w-block ++ Z)
    cases t with
    | nil =>
      simp only [List.nil_append, List.cons.injEq] at hrest
      obtain ⟨hmu, hB⟩ := brfree_eq hu hw hrest.2
      exact Or.inr (Or.inr ⟨by simpa using ht.symm, hmu, hB⟩)
    | cons t0 t' =>
      simp only [List.cons_append, List.cons.injEq] at hrest
      obtain ⟨rfl, hrest2⟩ := hrest
      rcases List.append_eq_append_iff.mp hrest2 with ⟨s, hs, hz⟩ | ⟨s, hs, hz⟩
      · -- t' = mu ++ s and ']' :: B = s ++ (w-block ++ Z)
        cases s with
        | nil => simp at hz
        | cons s0 s' =>
          simp only [List.cons_append, List.cons.injEq] at hz
          obtain ⟨rfl, hz2⟩ := hz
          refine Or.inl ⟨s', ?_, ?_⟩
          · rw [ht, hs]; simp
          · rw [hz2]; simp
      · -- mu = t' ++ s and w-block ++ Z = s ++ ']' :: B
        cases s with
        | nil => simp at hz
        | cons s0 s' =>
          exfalso
          have hs0 : s0 = '[' := by
            simp only [List.cons_append, List.cons.injEq] at hz
            exact hz.1.symm
          apply hu.1
          rw [hs, hs0]
          exact List.mem_append_right t' (List.mem_cons_self _ _)

theorem takeWhile_all_append {p : Char → Bool} {a t : List Char} {b : Char}
    (ha : ∀ c ∈ a, p c = true) (hb : p b = false) :
    (a ++ b :: t).takeWhile p = a ∧ (a ++ b :: t).dropWhile p = b :: t := by
  induction a with
  | nil => simp [List.takeWhile_cons, List.dropWhile_cons, hb]
  | cons c a' ih =>
    have hc : p c = true := ha c (List.mem_cons_self _ _)
    have ih' := ih (fun d hd => ha d (List.mem_cons_of_mem _ hd))
    simp [List.takeWhile_cons, List.dropWhile_cons, hc, ih'.1, ih'.2]

/-- Completeness of `matchPIIAt`: a decomposition into an opening marker, a
body containing the matching closing marker anywhere, forces a match. -/
theorem matchPIIAt_ne_none {l ty a b : List Char} (hty : TyOK ty)
    (hl : l = piiOpen ty ++ (a ++ piiClose ty ++ b)) :
    matchPIIAt l ≠ none := by
  intro hnone
  have h5 : l = "[PII:".data ++ (ty ++ ']' :: (a ++ piiClose ty ++ b)) := by
    rw [hl]; simp [piiOpen, List.append_assoc]
  have hpre : "[PII:".data.isPrefixOf l = true :=
    isPrefixOf_eq_true_iff.mpr ⟨_, h5⟩
  have hdrop : l.drop 5 = ty ++ ']' :: (a ++ piiClose ty ++ b) := by
    rw [h5]
    have h5l : ("[PII:".data).length = 5 := by decide
    rw [← h5l, List.drop_left]
  have htw := takeWhile_all_append (t := a ++ piiClose ty ++ b) hty.2 wordChar_rbracket
  unfold matchPIIAt at hnone
  rw [hpre, if_pos rfl] at hnone
  simp only [hdrop, htw.1, htw.2] at hnone
  rw [if_neg (by simpa [List.isEmpty_iff] using hty.1)] at hnone
  cases hsp : splitFirst (piiClose ty) (a ++ piiClose ty ++ b) with
  | none => exact splitFirst_none hsp a b rfl
  | some p => rw [hsp] at hnone; rcases p with ⟨v', post'⟩; simp at hnone

/-- Soundness of `findPII`: the decomposition it returns is exact, and the
match it returns is the leftmost one (no position strictly before it
matches). -/
theorem findPII_sound {l pre ty v post : List Char}
    (h : findPII l = some (pre, ty, v, post)) :
    l = pre ++ piiOpen ty ++ v ++ piiClose ty ++ post ∧ TyOK ty ∧
      ∀ a b, pre = a ++ b → b ≠ [] →
        matchPIIAt (b ++ piiOpen ty ++ v ++ piiClose ty ++ post) = none := by
  induction l generalizing pre with
  | nil => simp [findPII] at h
  | cons c cs ih =>
    simp only [findPII] at h
    cases hm : matchPIIAt (c :: cs) with
    | some r =>
      rw [hm] at h
      rcases r with ⟨ty', v', post'⟩
      simp only [Option.some.injEq, Prod.mk.injEq] at h
      rcases h with ⟨rfl, rfl, rfl, rfl⟩
      obtain ⟨heq, hty⟩ := matchPIIAt_sound hm
      refine ⟨by simpa [List.append_assoc] using heq, hty, ?_⟩
      intro a b hab hbne
      exact absurd (List.append_eq_nil.mp hab.symm).2 hbne
    | none =>
      rw [hm] at h
      cases hf : findPII cs with
      | none => rw [hf] at h; exact absurd h (by simp)
      | some r =>
        rw [hf] at h
        rcases r with ⟨pre', ty', v', post'⟩
        simp only [Option.some.injEq, Prod.mk.injEq] at h
        rcases h with ⟨rfl, rfl, rfl, rfl⟩
        obtain ⟨hdec, hty, hleft⟩ := ih hf
        refine ⟨by rw [hdec]; simp, hty, ?_⟩
        intro a b hab hbne
        cases a with
        | nil =>
          simp only [List.nil_append] at hab
          subst hab
          have hcs : (c :: pre') ++ piiOpen ty' ++ v' ++ piiClose ty' ++ post' = c :: cs := by
            rw [hdec]; simp
          rw [hcs]
          exact hm
        | cons a0 a' =>
          simp only [List.cons_append, List.cons.injEq] at hab
          exact hleft a' b hab.2 hbne

/-- If a string contains a well-formed marker span, it contains a match. -/
def HasMatch (l : List Char) : Prop :=
  ∃ pre ty v post, TyOK ty ∧ l = pre ++ piiOpen ty ++ v ++ piiClose ty ++ post

theorem not_hasMatch_of_findPII_none {l : List Char} (h : findPII l = none) :
    ¬ HasMatch l := by
  induction l with
  | nil =>
    rintro ⟨pre, ty, v, post, hty, heq⟩
    have := congrArg List.length heq
    simp [piiOpen, piiClose] at this
    omega
  | cons c cs ih =>
    simp only [findPII] at h
    cases hm : matchPIIAt (c :: cs) with
    | some r => rw [hm] at h; rcases r with ⟨ty', v', post'⟩; simp at h
    | none =>
      rw [hm] at h
      cases hf : findPII cs with
      | some r =>
        rw [hf] at h
        rcases r with ⟨pre', ty', v', post'⟩
        simp at h
      | none =>
        rintro ⟨pre, ty, v, post, hty, heq⟩
        cases pre with
        | nil =>
          refine matchPIIAt_ne_none hty (a := v) (b := post) ?_ hm
          simpa [List.append_assoc] using heq
        | cons p0 pre' =>
          refine ih hf ⟨pre', ty, v, post, hty, ?_⟩
          have := congrArg List.tail heq
          simpa using this

theorem findPII_nil : findPII [] = none := rfl

theorem piiOpen_block (ty : List Char) :
    piiOpen ty = '[' :: ("PII:".data ++ ty) ++ [']'] := by
  have h0 : "[PII:".data = '[' :: "PII:".data := by decide
  simp [piiOpen, h0, List.append_assoc]

theorem piiClose_block (ty : List Char) :
    piiClose ty = '[' :: ("/PII:".data ++ ty) ++ [']'] := by
  have h0 : "[/PII:".data = '[' :: "/PII:".data := by decide
  simp [piiClose, h0, List.append_assoc]

theorem redactedToken_block (ty : List Char) :
    redactedToken ty = '[' :: ("REDACTED:".data ++ ty) ++ [']'] := by
  have h0 : "[REDACTED:".data = '[' :: "REDACTED:".data := by decide
  simp [redactedToken, h0, List.append_assoc]

theorem bfree_open_mid {ty : List Char} (h : TyOK ty) :
    Bfree ("PII:".data ++ ty) :=
  bfree_append ⟨by decide, by decide⟩ (bfree_of_word h.2)

theorem bfree_close_mid {ty : List Char} (h : TyOK ty) :
    Bfree ("/PII:".data ++ ty) :=
  bfree_append ⟨by decide, by decide⟩ (bfree_of_word h.2)

theorem bfree_tok_mid {ty : List Char} (h : TyOK ty) :
    Bfree ("REDACTED:".data ++ ty) :=
  bfree_append ⟨by decide, by decide⟩ (bfree_of_word h.2)

theorem close_mid_ne_tok_mid {ty ty' : List Char} :
    "/PII:".data ++ ty' ≠ "REDACTED:".data ++ ty := by
  intro h
  have h1 : "/PII:".data = '/' :: "PII:".data := by decide
  have h2 : "REDACTED:".data = 'R' :: "EDACTED:".data := by decide
  rw [h1, h2] at h
  simp only [List.cons_append] at h
  injection h with hhd _
  exact absurd hhd (by decide)

theorem open_mid_ne_tok_mid {ty ty' : List Char} :
    "PII:".data ++ ty' ≠ "REDACTED:".data ++ ty := by
  intro h
  have h1 : "PII:".data = 'P' :: "II:".data := by decide
  have h2 : "REDACTED:".data = 'R' :: "EDACTED:".data := by decide
  rw [h1, h2] at h
  simp only [List.cons_append] at h
  injection h with hhd _
  exact absurd hhd (by decide)

/-- Any occurrence of a closing marker in the output of `redactPII` comes
from an occurrence already present in the input: the replacement tokens the
transform inserts can never contribute to a closing marker. -/
theorem close_occ_redact : ∀ n l, l.length ≤ n → ∀ ty' a b, TyOK ty' →
    redactPII l = a ++ piiClose ty' ++ b →
    ∃ a2 b2, l = a2 ++ piiClose ty' ++ b2 := by
  intro n
  induction n with
  | zero =>
    intro l hl ty' a b hty' heq
    have hnil : l = [] := List.length_eq_zero.mp (Nat.le_zero.mp hl)
    subst hnil
    rw [redactPII_of_none findPII_nil] at heq
    exfalso
    have := congrArg List.length heq
    simp [piiClose] at this
    omega
  | succ n ih =>
    intro l hl ty' a b hty' heq
    cases hf : findPII l with
    | none =>
      rw [redactPII_of_none hf] at heq
      exact ⟨a, b, heq⟩
    | some r =>
      rcases r with ⟨pre, ty, v, post⟩
      obtain ⟨hdec, hty, -⟩ := findPII_sound hf
      rw [redactPII_of_some hf] at heq
      rw [redactedToken_block ty, piiClose_block ty'] at heq
      have hpostlen : post.length ≤ n := by
        have := findPII_post_lt hf; omega
      rcases occ_around (bfree_close_mid hty') (bfree_tok_mid hty) heq with
        ⟨b2, hx, _⟩ | ⟨a2, _, hz⟩ | ⟨_, hmid, _⟩
      · -- closing marker inside `pre`
        rw [← piiClose_block] at hx
        exact ⟨a, b2 ++ piiOpen ty ++ v ++ piiClose ty ++ post, by
          rw [hdec, hx]; simp [List.append_assoc]⟩
      · -- closing marker inside `redactPII post`
        rw [← piiClose_block] at hz
        obtain ⟨a3, b3, hpost⟩ := ih post hpostlen ty' a2 b hty' hz
        exact ⟨pre ++ piiOpen ty ++ v ++ piiClose ty ++ a3, b3, by
          rw [hdec, hpost]; simp [List.append_assoc]⟩
      · exact absurd hmid close_mid_ne_tok_mid

/-- The output of `redactPII` contains no match of the marker pattern: the
inserted `[REDACTED:TYPE]` tokens never form part of a marker, and leftmost
matching removed every marker present in the input. -/
theorem redact_noMatch : ∀ n l, l.length ≤ n → ¬ HasMatch (redactPII l) := by
  intro n
  induction n with
  | zero =>
    intro l hl
    have hnil : l = [] := List.length_eq_zero.mp (Nat.le_zero.mp hl)
    subst hnil
    rw [redactPII_of_none findPII_nil]
    rintro ⟨pre, ty, v, post, hty, heq⟩
    have := congrArg List.length heq
    simp [piiOpen, piiClose] at this
    omega
  | succ n ih =>
    intro l hl
    cases hf : findPII l with
    | none =>
      rw [redactPII_of_none hf]
      exact not_hasMatch_of_findPII_none hf
    | some r =>
      rcases r with ⟨pre, ty, v, post⟩
      obtain ⟨hdec, hty, hleft⟩ := findPII_sound hf
      rw [redactPII_of_some hf]
      rintro ⟨A, ty', V, B0, hty', heq⟩
      have hpostlen : post.length ≤ n := by
        have := findPII_post_lt hf; omega
      have heq2 : pre ++ ('[' :: ("REDACTED:".data ++ ty) ++ [']']) ++ redactPII post =
          A ++ ('[' :: ("PII:".data ++ ty') ++ [']']) ++ (V ++ piiClose ty' ++ B0) := by
        rw [← redactedToken_block, ← piiOpen_block]
        rw [heq]
        simp [List.append_assoc]
      rcases occ_around (bfree_open_mid hty') (bfree_tok_mid hty) heq2 with
        ⟨b2, hx, hb⟩ | ⟨a2, _, hz⟩ | ⟨_, hmid, _⟩
      · -- the opening marker sits inside `pre`: contradicts leftmostness
        rw [← piiOpen_block] at hx
        have hxx : pre = A ++ (piiOpen ty' ++ b2) := by
          rw [hx]; simp [List.append_assoc]
        have hmn := hleft A (piiOpen ty' ++ b2) hxx (by simp [piiOpen])
        -- locate the closing marker `piiClose ty'` after the opening one
        have hb2 := hb.symm
        rw [piiClose_block ty'] at hb2
        rcases occ_around (bfree_close_mid hty') (bfree_tok_mid hty) hb2 with
          ⟨c2, hcx, _⟩ | ⟨c2, _, hcz⟩ | ⟨_, hmid2, _⟩
        · -- closing marker inside `b2`
          rw [← piiClose_block] at hcx
          refine matchPIIAt_ne_none hty'
            (a := V) (b := c2 ++ piiOpen ty ++ v ++ piiClose ty ++ post) ?_ hmn
          rw [hcx]; simp [List.append_assoc]
        · -- closing marker inside `redactPII post`: pull it back into `post`
          rw [← piiClose_block] at hcz
          obtain ⟨a3, b3, hpost⟩ := close_occ_redact post.length post le_rfl ty' c2 B0 hty' hcz
          refine matchPIIAt_ne_none hty'
            (a := b2 ++ piiOpen ty ++ v ++ piiClose ty ++ a3) (b := b3) ?_ hmn
          rw [hpost]; simp [List.append_assoc]
        · exact absurd hmid2 close_mid_ne_tok_mid
      · -- the opening marker sits inside `redactPII post`
        rw [← piiOpen_block] at hz
        refine ih post hpostlen ⟨a2, ty', V, B0, hty', ?_⟩
        rw [hz]; simp [List.append_assoc]
      · exact absurd hmid open_mid_ne_tok_mid

theorem findPII_redact_none (l : List Char) : findPII (redactPII l) = none := by
  cases hf : findPII (redactPII l) with
  | none => rfl
  | some r =>
    rcases r with ⟨pre, ty, v, post⟩
    obtain ⟨hdec, hty, -⟩ := findPII_sound hf
    exact absurd ⟨pre, ty, v, post, hty, hdec⟩ (redact_noMatch l.length l le_rfl)

theorem redactPII_idem (l : List Char) : redactPII (redactPII l) = redactPII l :=
  redactPII_of_none (findPII_redact_none l)

/-- Claim C9: redaction is idempotent: for every input text `s`,
`redactPII (redactPII s) = redactPII s` — the marker pattern never matches
the `[REDACTED:TYPE]` tokens that redaction produces, so redacting an
already-redacted file is a no-op. -/
theorem redaction_idempotent (s : String) :
    redactPIIStr (redactPIIStr s) = redactPIIStr s :=
  congrArg String.mk (redactPII_idem s.data)

/-! ## Pre-Transmission Gate (Hooks/PrePush.ts)

The gate scans the derived `.safe.md` / `.quick.md` artifacts with eight
fixed regular expressions (`PII_PATTERNS`).  Each regex is translated into
an executable matcher deciding whether the pattern matches anywhere in the
scanned text, which is exactly what `content.match(regex)` returning a
nonempty match list means. -/

/-- Character class `[a-z0-9._%+-]` with the `i` flag (so both cases). -/
def emailLocalChar (c : Char) : Bool :=
  c.isAlphanum || c = '.' || c = '_' || c = '%' || c = '+' || c = '-'

/-- Character class `[a-z0-9.-]` with the `i` flag. -/
def emailDomChar (c : Char) : Bool := c.isAlphanum || c = '.' || c = '-'

/-- At least two ASCII letters follow (`[a-z]{2,}` with the `i` flag). -/
def tld2 (l : List Char) : Bool :=
  match l with
  | a :: b :: _ => a.isAlpha && b.isAlpha
  | _ => false

/-- After the mandatory first domain character: scan domain characters
until a dot followed by a two-letter TLD is reached. -/
def domScan : List Char → Bool
  | [] => false
  | c :: rest => (c = '.' && tld2 rest) || (emailDomChar c && domScan rest)

/-- Domain part `[a-z0-9.-]+\.[a-z]{2,}`: at least one domain character,
then a dot with at least two letters after it, all characters before that
dot drawn from the domain class. -/
def domDotTld (l : List Char) : Bool :=
  match l with
  | c :: rest => emailDomChar c && domScan rest
  | [] => false

/-- Email regex `[a-z0-9._%+-]+@[a-z0-9.-]+\.[a-z]{2,}/i` matching at the
start of `l`: a maximal nonempty run of local characters (the character
after the run must be `@`, which is not in the class, so the maximal run is
the only candidate), then the domain. -/
def emailAt (l : List Char) : Bool :=
  let loc := l.takeWhile emailLocalChar
  let r := l.dropWhile emailLocalChar
  !loc.isEmpty &&
    match r with
    | '@' :: r2 => domDotTld r2
    | _ => false

/-- Try a pattern at every start position (regex scan for a match). -/
def scanB (f : List Char → Bool) : List Char → Bool
  | [] => f []
  | c :: cs => f (c :: cs) || scanB f cs

/-- `content.match(/[a-z0-9._%+-]+@[a-z0-9.-]+\.[a-z]{2,}/gi)` nonempty. -/
def emailFound (l : List Char) : Bool := scanB emailAt l

/-- JavaScript `\s` (the ASCII whitespace characters). -/
def jsSpace (c : Char) : Bool :=
  c = ' ' || c = '\t' || c = '\n' || c = '\r' || c = '\x0b' || c = '\x0c'

/-- Optional single character satisfying `p` (`X?` in a regex), with
backtracking: try consuming it, and also try not consuming it. -/
def optChar (p : Char → Bool) (k : List Char → Bool) (l : List Char) : Bool :=
  (match l with
   | c :: rest => p c && k rest
   | [] => false) || k l

/-- Optional separator `[\s-]?`. -/
def sepOpt (k : List Char → Bool) (l : List Char) : Bool :=
  optChar (fun c => jsSpace c || c = '-') k l

/-- Between `lo` and `hi` digits (`\d{lo,hi}`), with backtracking over the
count, then continue with `k`. -/
def digitsRange : Nat → Nat → (List Char → Bool) → List Char → Bool
  | 0, 0, k, l => k l
  | 0, hi + 1, k, l =>
    k l ||
      (match l with
       | c :: r => c.isDigit && digitsRange 0 hi k r
       | [] => false)
  | _ + 1, 0, _, _ => false
  | lo + 1, hi + 1, k, l =>
    match l with
    | c :: r => c.isDigit && digitsRange lo hi k r
    | [] => false

/-- Phone regex `\+?\d{1,3}[\s-]?\(?\d{1,4}\)?[\s-]?\d{1,4}[\s-]?\d{1,9}`
matching at the start of `l`. -/
def phoneAt (l : List Char) : Bool :=
  optChar (· = '+')
    (digitsRange 1 3
      (sepOpt
        (optChar (· = '(')
          (digitsRange 1 4
            (optChar (· = ')')
              (sepOpt
                (digitsRange 1 4
                  (sepOpt
                    (digitsRange 1 9 (fun _ => true)))))))))) l

def phoneFound (l : List Char) : Bool := scanB phoneAt l

/-- `sk-[a-zA-Z0-9]{20,}` at the start of `l`. -/
def apiKeyAt (l : List Char) : Bool :=
  "sk-".data.isPrefixOf l &&
    decide (20 ≤ ((l.drop 3).takeWhile Char.isAlphanum).length)

def apiKeyFound (l : List Char) : Bool := scanB apiKeyAt l

/-- Character class `[0-9A-Z]`. -/
def upperDigit (c : Char) : Bool := c.isDigit || c.isUpper

/-- `AKIA[0-9A-Z]{16}` at the start of `l`. -/
def awsKeyAt (l : List Char) : Bool :=
  "AKIA".data.isPrefixOf l &&
    decide (16 ≤ ((l.drop 4).takeWhile upperDigit).length)

def awsKeyFound (l : List Char) : Bool := scanB awsKeyAt l

/-- Character class `[a-zA-Z0-9_-]` of the JWT regex. -/
def jwtChar (c : Char) : Bool := c.isAlphanum || c = '_' || c = '-'

/-- One JWT segment `eyJ[a-zA-Z0-9_-]{5,}` (`.` is not in the class, so the
run is maximal); returns the text after the run on success. -/
def jwtSeg (l : List Char) : Option (List Char) :=
  if "eyJ".data.isPrefixOf l then
    let r := l.drop 3
    if 5 ≤ (r.takeWhile jwtChar).length then some (r.dropWhile jwtChar) else none
  else none

/-- `eyJ[a-zA-Z0-9_-]{5,}\.eyJ[a-zA-Z0-9_-]{5,}\.[a-zA-Z0-9_-]{5,}` at the
start of `l`. -/
def jwtAt (l : List Char) : Bool :=
  match jwtSeg l with
  | some r1 =>
    (match r1 with
     | '.' :: r2 =>
       (match jwtSeg r2 with
        | some r3 =>
          (match r3 with
           | '.' :: r4 => decide (5 ≤ (r4.takeWhile jwtChar).length)
           | _ => false)
        | none => false)
     | _ => false)
  | none => false

def jwtFound (l : List Char) : Bool := scanB jwtAt l

/-- `ghp_[a-zA-Z0-9]{36}` at the start of `l`. -/
def githubTokenAt (l : List Char) : Bool :=
  "ghp_".data.isPrefixOf l &&
    decide (36 ≤ ((l.drop 4).takeWhile Char.isAlphanum).length)

def githubTokenFound (l : List Char) : Bool := scanB githubTokenAt l

/-- JavaScript word character for `\b` boundaries. -/
def jsWordChar (c : Char) : Bool := c.isAlphanum || c = '_'

/-- A `\b` boundary holds before a word character when the previous
character (if any) is not a word character. -/
def boundaryBefore (prev : Option Char) : Bool :=
  match prev with
  | none => true
  | some p => !jsWordChar p

/-- A `\b` boundary holds after a word character when the next character
(if any) is not a word character. -/
def boundaryAfter (l : List Char) : Bool :=
  match l with
  | [] => true
  | c :: _ => !jsWordChar c

/-- Exactly four digits, then continue with `k`. -/
def digits4 (k : List Char → Bool) (l : List Char) : Bool :=
  match l with
  | a :: b :: c :: d :: r => a.isDigit && b.isDigit && c.isDigit && d.isDigit && k r
  | _ => false

/-- `\b\d{4}[\s-]?\d{4}[\s-]?\d{4}[\s-]?\d{4}\b` at the start of `l`, with
`prev` the character immediately before the start position. -/
def creditCardAt (prev : Option Char) (l : List Char) : Bool :=
  boundaryBefore prev &&
    digits4 (sepOpt (digits4 (sepOpt (digits4 (sepOpt (digits4 boundaryAfter)))))) l

/-- Scan a boundary-sensitive pattern over every position, tracking the
previous character. -/
def scanPrev (f : Option Char → List Char → Bool) : Option Char → List Char → Bool
  | prev, [] => f prev []
  | prev, c :: cs => f prev (c :: cs) || scanPrev f (some c) cs

def creditCardFound (l : List Char) : Bool := scanPrev creditCardAt none l

/-- Exactly `n` digits, then continue with `k`. -/
def digitsN : Nat → (List Char → Bool) → List Char → Bool
  | 0, k, l => k l
  | n + 1, k, l =>
    match l with
    | c :: r => c.isDigit && digitsN n k r
    | [] => false

/-- A single literal character, then continue with `k`. -/
def litChar (ch : Char) (k : List Char → Bool) (l : List Char) : Bool :=
  match l with
  | c :: r => c = ch && k r
  | [] => false

/-- `\b\d{3}-\d{2}-\d{4}\b` at the start of `l`. -/
def ssnAt (prev : Option Char) (l : List Char) : Bool :=
  boundaryBefore prev &&
    digitsN 3 (litChar '-' (digitsN 2 (litChar '-' (digitsN 4 boundaryAfter)))) l

def ssnFound (l : List Char) : Bool := scanPrev ssnAt none l

/-- `type.toUpperCase()` of a pattern key. -/
def upperKey (s : String) : String := ⟨s.data.map Char.toUpper⟩

/-- The binary/skip extension test
`/\.(jpg|jpeg|png|gif|pdf|zip|tar|gz|exe|dll|so|dylib)$/i` on a path. -/
def binaryExt (path : String) : Bool :=
  let pl := path.data.map Char.toLower
  [".jpg", ".jpeg", ".png", ".gif", ".pdf", ".zip", ".tar", ".gz", ".exe",
    ".dll", ".so", ".dylib"].any (fun e => e.data.isSuffixOf pl)

/-- `PII_PATTERNS` in `Object.entries` (insertion) order: pattern key and
its match predicate. -/
def piiPatternList : List (String × (List Char → Bool)) :=
  [("email", emailFound), ("phone", phoneFound), ("apiKey", apiKeyFound),
   ("awsKey", awsKeyFound), ("jwt", jwtFound), ("githubToken", githubTokenFound),
   ("creditCard", creditCardFound), ("ssn", ssnFound)]

/-- The marker-correlation test of `checkFileForPII`:
`content.includes("[PII:" + type.toUpperCase() + "]") ||
 content.includes("[REDACTED:" + type.toUpperCase() + "]")`. -/
def isMarkedFor (content tyUpper : String) : Bool :=
  strContains content ("[PII:" ++ tyUpper ++ "]") ||
    strContains content ("[REDACTED:" ++ tyUpper ++ "]")

/-- `checkFileForPII` of the PrePush hook, returning the list of flagged
pattern keys (the source stores a description string per flagged pattern;
the keys identify the same findings). -/
def checkFileForPII (filePath content : String) : List String :=
  if binaryExt filePath || strContains filePath ".git/" then []
  else
    piiPatternList.filterMap (fun pat =>
      if pat.2 content.data && !isMarkedFor content (upperKey pat.1) then
        some pat.1
      else none)

/-- `result.hasPII` of `checkFileForPII`. -/
def fileHasPII (filePath content : String) : Bool :=
  !(checkFileForPII filePath content).isEmpty

/-- Observable outcome of the PrePush gate: process exit code and the files
named in the blocking report. -/
structure GateResult where
  exitCode : Nat
  blockedFiles : List String
deriving DecidableEq, Repr

/-- `main` of the PrePush hook.  `files` is the list of
(path, content) pairs produced by `getFilesToCheck` (the walk over the
derived `.safe.md` / `.quick.md` artifacts); `configPresent` and
`redact_pii` are the loaded configuration.  Exit code 2 blocks the push,
0 allows it; on blocking the report names each flagged file. -/
def prePushMain (configPresent redact_pii : Bool)
    (files : List (String × String)) : GateResult :=
  if !configPresent || !redact_pii then ⟨0, []⟩
  else if files.isEmpty then ⟨0, []⟩
  else
    let piiDetected := files.filter (fun f => fileHasPII f.1 f.2)
    if piiDetected.isEmpty then ⟨0, []⟩
    else ⟨2, piiDetected.map (fun f => f.1)⟩

theorem upperKey_email : upperKey "email" = "EMAIL" := by decide

theorem upperKey_apiKey : upperKey "apiKey" = "APIKEY" := by decide

/-- Helper: a flagged file forces the gate to exit 2 and name the file. -/
theorem prePushMain_blocks {files : List (String × String)} {p c : String}
    (hmem : (p, c) ∈ files) (hhas : fileHasPII p c = true) :
    (prePushMain true true files).exitCode = 2 ∧
      p ∈ (prePushMain true true files).blockedFiles := by
  have hmemf : (p, c) ∈ files.filter (fun f => fileHasPII f.1 f.2) :=
    List.mem_filter.mpr ⟨hmem, hhas⟩
  have hfe : files.isEmpty = false :=
    List.isEmpty_eq_false.mpr (List.ne_nil_of_mem hmem)
  have hde : (files.filter (fun f => fileHasPII f.1 f.2)).isEmpty = false :=
    List.isEmpty_eq_false.mpr (List.ne_nil_of_mem hmemf)
  unfold prePushMain
  simp only [Bool.not_true, Bool.or_self, Bool.false_eq_true, if_false, hfe, hde]
  exact ⟨trivial, List.mem_map.mpr ⟨(p, c), hmemf, rfl⟩⟩

/-- Helper: the `email` finding is produced exactly when the email pattern
matches and neither email marker token is present in the file. -/
theorem email_finding_mem {p c : String}
    (hemail : emailFound c.data = true)
    (hm1 : strContains c "[PII:EMAIL]" = false)
    (hm2 : strContains c "[REDACTED:EMAIL]" = false)
    (hbin : binaryExt p = false)
    (hgit : strContains p ".git/" = false) :
    "email" ∈ checkFileForPII p c := by
  unfold checkFileForPII
  rw [hbin, hgit]
  simp only [Bool.or_self, Bool.false_eq_true, if_false]
  apply List.mem_filterMap.mpr
  refine ⟨("email", emailFound), by simp [piiPatternList], ?_⟩
  have hmk : isMarkedFor c (upperKey "email") = false := by
    rw [upperKey_email]
    unfold isMarkedFor
    have e1 : ("[PII:" ++ "EMAIL" ++ "]" : String) = "[PII:EMAIL]" := by decide
    have e2 : ("[REDACTED:" ++ "EMAIL" ++ "]" : String) = "[REDACTED:EMAIL]" := by decide
    rw [e1, e2, hm1, hm2]
    rfl
  simp only [hemail, hmk, Bool.not_false, Bool.and_self, if_true]

/-- Claim C2: for every derived artifact scanned by the pre-transmission
gate: a bare (unmarked) string matching the email pattern makes the gate
terminate with the blocked exit status (exit code 2) and name that file in
its report; the same string wrapped as a `[REDACTED:EMAIL]` token never
blocks because of the email pattern (no email finding is produced when
that token is present). -/
theorem gate_email_soundness :
    (∀ (files : List (String × String)) (p c : String),
      (p, c) ∈ files →
      emailFound c.data = true →
      strContains c "[PII:EMAIL]" = false →
      strContains c "[REDACTED:EMAIL]" = false →
      binaryExt p = false →
      strContains p ".git/" = false →
      (prePushMain true true files).exitCode = 2 ∧
        p ∈ (prePushMain true true files).blockedFiles) ∧
    ∀ (p c : String), strContains c "[REDACTED:EMAIL]" = true →
      "email" ∉ checkFileForPII p c := by
  constructor
  · intro files p c hmem hemail hm1 hm2 hbin hgit
    have hfind := email_finding_mem hemail hm1 hm2 hbin hgit
    have hhas : fileHasPII p c = true := by
      unfold fileHasPII
      rw [List.isEmpty_eq_false.mpr (List.ne_nil_of_mem hfind)]
      rfl
    exact prePushMain_blocks hmem hhas
  · intro p c hred hmem
    unfold checkFileForPII at hmem
    by_cases hskip : (binaryExt p || strContains p ".git/") = true
    · rw [if_pos hskip] at hmem
      exact absurd hmem (by simp)
    · rw [if_neg hskip] at hmem
      rcases List.mem_filterMap.mp hmem with ⟨pat, hpat, hfa⟩
      have hkey : isMarkedFor c (upperKey "email") = true := by
        rw [upperKey_email]
        unfold isMarkedFor
        have e2 : ("[REDACTED:" ++ "EMAIL" ++ "]" : String) = "[REDACTED:EMAIL]" := by decide
        rw [e2, hred]
        simp
      simp only [piiPatternList, List.mem_cons, List.mem_singleton] at hpat
      rcases hpat with rfl | rfl | rfl | rfl | rfl | rfl | rfl | rfl | h
      · simp only [hkey, Bool.not_true, Bool.and_false, Bool.false_eq_true, if_false] at hfa
        exact absurd hfa (by simp)
      · split at hfa
        · exact absurd (Option.some.inj hfa) (by decide)
        · exact absurd hfa (by simp)
      · split at hfa
        · exact absurd (Option.some.inj hfa) (by decide)
        · exact absurd hfa (by simp)
      · split at hfa
        · exact absurd (Option.some.inj hfa) (by decide)
        · exact absurd hfa (by simp)
      · split at hfa
        · exact absurd (Option.some.inj hfa) (by decide)
        · exact absurd hfa (by simp)
      · split at hfa
        · exact absurd (Option.some.inj hfa) (by decide)
        · exact absurd hfa (by simp)
      · split at hfa
        · exact absurd (Option.some.inj hfa) (by decide)
        · exact absurd hfa (by simp)
      · split at hfa
        · exact absurd (Option.some.inj hfa) (by decide)
        · exact absurd hfa (by simp)
      · exact absurd h (by simp)

/-- Witness for C2 at a concrete artifact list. -/
theorem gate_email_soundness_witness :
    emailFound "contact: alice@example.com".data = true ∧
    ((prePushMain true true
        [("notes.safe.md", "contact: alice@example.com")]).exitCode = 2 ∧
      "notes.safe.md" ∈ (prePushMain true true
        [("notes.safe.md", "contact: alice@example.com")]).blockedFiles) ∧
    "email" ∉ checkFileForPII "mem.quick.md" "mail: [REDACTED:EMAIL] (hidden)" :=
  ⟨by decide,
   gate_email_soundness.1 [("notes.safe.md", "contact: alice@example.com")]
     "notes.safe.md" "contact: alice@example.com"
     (by decide) (by decide) (by decide) (by decide) (by decide) (by decide),
   gate_email_soundness.2 "mem.quick.md" "mail: [REDACTED:EMAIL] (hidden)" (by decide)⟩

/-- Claim C10: the gate correlates a match with markers using the pattern
key uppercased (`APIKEY`), not the documented marker vocabulary (`API`):
a scanned file containing an OpenAI-style key match together with a
`[PII:API]` or `[REDACTED:API]` token but no `[PII:APIKEY]` /
`[REDACTED:APIKEY]` token still yields an `apiKey` finding and the gate
blocks the push. -/
theorem gate_apikey_marker_vocabulary :
    ∀ (files : List (String × String)) (p c : String),
      (p, c) ∈ files →
      apiKeyFound c.data = true →
      (strContains c "[PII:API]" = true ∨ strContains c "[REDACTED:API]" = true) →
      strContains c "[PII:APIKEY]" = false →
      strContains c "[REDACTED:APIKEY]" = false →
      binaryExt p = false →
      strContains p ".git/" = false →
      "apiKey" ∈ checkFileForPII p c ∧
        (prePushMain true true files).exitCode = 2 ∧
        p ∈ (prePushMain true true files).blockedFiles := by
  intro files p c hmem hapi hdoc hm1 hm2 hbin hgit
  have hfind : "apiKey" ∈ checkFileForPII p c := by
    unfold checkFileForPII
    rw [hbin, hgit]
    simp only [Bool.or_self, Bool.false_eq_true, if_false]
    apply List.mem_filterMap.mpr
    refine ⟨("apiKey", apiKeyFound), by simp [piiPatternList], ?_⟩
    have hmk : isMarkedFor c (upperKey "apiKey") = false := by
      rw [upperKey_apiKey]
      unfold isMarkedFor
      have e1 : ("[PII:" ++ "APIKEY" ++ "]" : String) = "[PII:APIKEY]" := by decide
      have e2 : ("[REDACTED:" ++ "APIKEY" ++ "]" : String) = "[REDACTED:APIKEY]" := by decide
      rw [e1, e2, hm1, hm2]
      rfl
    simp only [hapi, hmk, Bool.not_false, Bool.and_self, if_true]
  have hhas : fileHasPII p c = true := by
    unfold fileHasPII
    rw [List.isEmpty_eq_false.mpr (List.ne_nil_of_mem hfind)]
    rfl
  exact ⟨hfind, prePushMain_blocks hmem hhas⟩

/-- Witness for C10 at concrete artifacts, one for each token form of the
hypothesis: a file carrying a `[PII:API]` token and a file carrying a
`[REDACTED:API]` token. -/
theorem gate_apikey_marker_vocabulary_witness :
    apiKeyFound "key sk-abcdefghijklmnopqrst [PII:API]".data = true ∧
    strContains "key sk-abcdefghijklmnopqrst [PII:API]" "[PII:API]" = true ∧
    strContains "key sk-abcdefghijklmnopqrst [REDACTED:API]" "[REDACTED:API]" = true ∧
    ("apiKey" ∈ checkFileForPII "keys.safe.md" "key sk-abcdefghijklmnopqrst [PII:API]" ∧
      (prePushMain true true
        [("keys.safe.md", "key sk-abcdefghijklmnopqrst [PII:API]")]).exitCode = 2 ∧
      "keys.safe.md" ∈ (prePushMain true true
        [("keys.safe.md", "key sk-abcdefghijklmnopqrst [PII:API]")]).blockedFiles) ∧
    ("apiKey" ∈ checkFileForPII "keys.quick.md" "key sk-abcdefghijklmnopqrst [REDACTED:API]" ∧
      (prePushMain true true
        [("keys.quick.md", "key sk-abcdefghijklmnopqrst [REDACTED:API]")]).exitCode = 2 ∧
      "keys.quick.md" ∈ (prePushMain true true
        [("keys.quick.md", "key sk-abcdefghijklmnopqrst [REDACTED:API]")]).blockedFiles) :=
  ⟨by decide, by decide, by decide,
   gate_apikey_marker_vocabulary
     [("keys.safe.md", "key sk-abcdefghijklmnopqrst [PII:API]")]
     "keys.safe.md" "key sk-abcdefghijklmnopqrst [PII:API]"
     (by decide) (by decide) (Or.inl (by decide)) (by decide) (by decide)
     (by decide) (by decide),
   gate_apikey_marker_vocabulary
     [("keys.quick.md", "key sk-abcdefghijklmnopqrst [REDACTED:API]")]
     "keys.quick.md" "key sk-abcdefghijklmnopqrst [REDACTED:API]"
     (by decide) (by decide) (Or.inr (by decide)) (by decide) (by decide)
     (by decide) (by decide)⟩

/-! ## Conflict Resolver (Scripts/resolve-conflicts.ts)

Timestamps are extracted from conflict bodies with three regexes tried in
order (ISO 8601, space-separated date-time, a `"last_updated"` JSON field)
and turned into JavaScript `Date` values.  A `Date` is modelled as
`Option DateTime`: `none` is an Invalid Date (whose comparisons are all
false, like `NaN`).  Calendar fields are compared through a strictly
monotone linearisation `DateTime.key`, which for in-range dates orders
exactly like the epoch-milliseconds comparison of the source; sub-second
precision and time zones are not modelled. -/

structure DateTime where
  year : Nat
  month : Nat
  day : Nat
  hour : Nat
  minute : Nat
  second : Nat
deriving DecidableEq, Repr

/-- Strictly monotone (lexicographic) linearisation of the fields. -/
def DateTime.key (t : DateTime) : Nat :=
  ((((t.year * 13 + t.month) * 32 + t.day) * 25 + t.hour) * 61 + t.minute) * 61 + t.second

def isLeap (y : Nat) : Bool := (y % 4 = 0 && y % 100 != 0) || y % 400 = 0

def daysInMonth (y m : Nat) : Nat :=
  if m = 2 then (if isLeap y then 29 else 28)
  else if m = 4 || m = 6 || m = 9 || m = 11 then 30
  else 31

/-- Range validity: JavaScript turns out-of-range components of a
date-time string into an Invalid Date. -/
def validDT (t : DateTime) : Bool :=
  1 ≤ t.month && t.month ≤ 12 && 1 ≤ t.day && t.day ≤ daysInMonth t.year t.month &&
    (t.hour ≤ 23 && t.minute ≤ 59 && t.second ≤ 59 ||
      t.hour = 24 && t.minute = 0 && t.second = 0)

/-- A JavaScript `Date` value: `none` is an Invalid Date. -/
abbrev JsDate := Option DateTime

def mkJsDate (t : DateTime) : JsDate := if validDT t then some t else none

/-- Exactly `n` digits parsed into a number, returning the remainder. -/
def parseDigitsAux : Nat → Nat → List Char → Option (Nat × List Char)
  | 0, acc, l => some (acc, l)
  | n + 1, acc, l =>
    match l with
    | c :: r =>
      if c.isDigit then parseDigitsAux n (acc * 10 + (c.toNat - 48)) r else none
    | [] => none

def parseDigits (n : Nat) (l : List Char) : Option (Nat × List Char) :=
  parseDigitsAux n 0 l

def expectChar (ch : Char) (l : List Char) : Option (List Char) :=
  match l with
  | c :: r => if c = ch then some r else none
  | [] => none

/-- `\s+`: at least one whitespace character, consuming the maximal run
(the following regex token is a digit, which is not whitespace). -/
def spaceRun (l : List Char) : Option (List Char) :=
  match l with
  | c :: r => if jsSpace c then some (r.dropWhile jsSpace) else none
  | [] => none

/-- Core date-time shape `\d{4}-\d{2}-\d{2}<sep>\d{2}:\d{2}:\d{2}` at the
start of `l`, with either a literal `T` or `\s+` as separator; returns the
parsed fields and the remainder. -/
def isoCore (sepIsT : Bool) (l : List Char) : Option (DateTime × List Char) := do
  let (y, r1) ← parseDigits 4 l
  let r2 ← expectChar '-' r1
  let (mo, r3) ← parseDigits 2 r2
  let r4 ← expectChar '-' r3
  let (d, r5) ← parseDigits 2 r4
  let r6 ← (if sepIsT then expectChar 'T' r5 else spaceRun r5)
  let (h, r7) ← parseDigits 2 r6
  let r8 ← expectChar ':' r7
  let (mi, r9) ← parseDigits 2 r8
  let r10 ← expectChar ':' r9
  let (s, r11) ← parseDigits 2 r10
  pure (⟨y, mo, d, h, mi, s⟩, r11)

/-- The ISO 8601 regex `\d{4}-\d{2}-\d{2}T\d{2}:\d{2}:\d{2}` at one
position. -/
def isoTAt (l : List Char) : Option DateTime := (isoCore true l).map (·.1)

/-- The space format regex `\d{4}-\d{2}-\d{2}\s+\d{2}:\d{2}:\d{2}` at one
position. -/
def isoSpaceAt (l : List Char) : Option DateTime := (isoCore false l).map (·.1)

/-- Leftmost position where an `Option`-valued matcher succeeds. -/
def scanO {α : Type} (f : List Char → Option α) : List Char → Option α
  | [] => f []
  | c :: cs =>
    match f (c :: cs) with
    | some x => some x
    | none => scanO f cs

/-- The `"last_updated":\s*"([^"]+)"` regex at one position; returns the
captured field value. -/
def lastUpdatedAt (l : List Char) : Option (List Char) :=
  let needle := "\x22last_updated\x22:".data
  if needle.isPrefixOf l then
    match (l.drop needle.length).dropWhile jsSpace with
    | '\x22' :: r2 =>
      let v := r2.takeWhile (fun c => c != '\x22')
      if v.isEmpty then none
      else
        match r2.dropWhile (fun c => c != '\x22') with
        | '\x22' :: _ => some v
        | _ => none
    | _ => none
  else none

/-- Trailing text `new Date` accepts after the seconds: nothing, a `Z`, or
fractional seconds with an optional `Z`. -/
def fracOK (l : List Char) : Bool :=
  match l with
  | [] => true
  | ['Z'] => true
  | '.' :: r =>
    let ds := r.takeWhile Char.isDigit
    !ds.isEmpty &&
      (match r.dropWhile Char.isDigit with
       | [] => true
       | ['Z'] => true
       | _ => false)
  | _ => false

/-- `new Date(str)` on an arbitrary captured string: parses a date-time in
either separator form anchored at the start, otherwise Invalid Date. -/
def jsDateOfString (l : List Char) : JsDate :=
  match isoCore true l with
  | some (t, rest) => if fracOK rest && validDT t then some t else none
  | none =>
    match isoCore false l with
    | some (t, rest) => if fracOK rest && validDT t then some t else none
    | none => none

/-- `extractTimestamp` of the resolver: try the ISO regex, then the space
format, then the `last_updated` field; `none` means no timestamp was
found (the source returns `null`). -/
def extractTimestamp (content : String) : Option JsDate :=
  match scanO isoTAt content.data with
  | some t => some (mkJsDate t)
  | none =>
    match scanO isoSpaceAt content.data with
    | some t => some (mkJsDate t)
    | none =>
      match scanO lastUpdatedAt content.data with
      | some v => some (jsDateOfString v)
      | none => none

/-- JavaScript `a > b` on `Date`s: false whenever either side is Invalid
(`NaN` comparison), otherwise strict comparison. -/
def jsLater (a b : JsDate) : Bool :=
  match a, b with
  | some x, some y => decide (y.key < x.key)
  | _, _ => false

inductive Winner
  | localSide
  | remoteSide
deriving DecidableEq, Repr

/-- `resolveByTimestamp`: the winner and the reason text (the source
embeds a minute difference in the reason; the fixed prefix identifies the
same branch). -/
def resolveByTimestamp (localBody remoteBody : String) : Winner × String :=
  match extractTimestamp localBody, extractTimestamp remoteBody with
  | none, none => (Winner.localSide, "No timestamps found - defaulting to local")
  | none, some _ => (Winner.remoteSide, "Only remote has timestamp")
  | some _, none => (Winner.localSide, "Only local has timestamp")
  | some lt, some rt =>
    if jsLater rt lt then (Winner.remoteSide, "Remote is newer")
    else (Winner.localSide, "Local is newer")

/-- `extractConflict`: the regex
`<<<<<<< HEAD\n([\s\S]*?)\n=======\n([\s\S]*?)\n>>>>>>> .*` — the first
marker block of the file, yielding the local and remote bodies. -/
def extractConflict (content : String) : Option (String × String) :=
  match splitFirst "<<<<<<< HEAD\n".data content.data with
  | none => none
  | some (_, rest) =>
    match splitFirst "\n=======\n".data rest with
    | none => none
    | some (lc, rest2) =>
      match splitFirst "\n>>>>>>> ".data rest2 with
      | none => none
      | some (rc, _) => some (⟨lc⟩, ⟨rc⟩)

/-- `MANUAL_RESOLUTION_FILES`. -/
def manualResolutionFiles : List String :=
  [".config.json", ".sync-config.json", "sync/device-registry.json"]

/-- `requiresManualResolution` on the path relative to the memory root
(the source strips the absolute prefix first). -/
def requiresManualResolution (relPath : String) : Bool :=
  manualResolutionFiles.any (fun pat => strContains relPath pat)

/-- Observable outcome of `resolveFile`: the file content after the call,
whether `git add` staged it, the body archived to the conflicts directory,
whether a resolution-log entry was appended, and the returned Boolean. -/
structure ResolveOutcome where
  newContent : String
  staged : Bool
  archivedLoser : Option String
  logged : Bool
  resolvedOK : Bool
deriving DecidableEq, Repr

/-- `resolveFile`: critical files are reported for manual resolution and
left untouched; otherwise the first conflict block is resolved by
timestamp, the loser is archived, the winner body is written as the new
file content, the file is staged and the resolution is logged. -/
def resolveFile (relPath content : String) : ResolveOutcome :=
  if requiresManualResolution relPath then
    ⟨content, false, none, false, false⟩
  else
    match extractConflict content with
    | none => ⟨content, false, none, false, false⟩
    | some (lc, rc) =>
      let res := resolveByTimestamp lc rc
      let winnerContent := if res.1 = Winner.localSide then lc else rc
      let loserContent := if res.1 = Winner.localSide then rc else lc
      ⟨winnerContent, true, some loserContent, true, true⟩

theorem jsLater_irrefl (x : JsDate) : jsLater x x = false := by
  cases x with
  | none => rfl
  | some t => simp [jsLater]

/-- Claim C3: for every conflicted non-critical file: when both bodies
yield extractable timestamps the resolver selects remote exactly when the
remote timestamp is strictly later (JavaScript `>`, so equal timestamps —
and Invalid-Date comparisons — select local); when exactly one body yields
a timestamp that body wins; when neither does, local wins. -/
theorem resolver_timestamp_policy (lc rc : String) :
    (∀ lt rt, extractTimestamp lc = some lt → extractTimestamp rc = some rt →
      ((resolveByTimestamp lc rc).1 = Winner.remoteSide ↔ jsLater rt lt = true) ∧
        (lt = rt → (resolveByTimestamp lc rc).1 = Winner.localSide)) ∧
    (∀ rt, extractTimestamp lc = none → extractTimestamp rc = some rt →
      (resolveByTimestamp lc rc).1 = Winner.remoteSide) ∧
    (∀ lt, extractTimestamp lc = some lt → extractTimestamp rc = none →
      (resolveByTimestamp lc rc).1 = Winner.localSide) ∧
    (extractTimestamp lc = none → extractTimestamp rc = none →
      (resolveByTimestamp lc rc).1 = Winner.localSide) := by
  refine ⟨?_, ?_, ?_, ?_⟩
  · intro lt rt hl hr
    constructor
    · unfold resolveByTimestamp
      rw [hl, hr]
      cases hj : jsLater rt lt with
      | true => simp [hj]
      | false => simp [hj]
    · rintro rfl
      unfold resolveByTimestamp
      rw [hl, hr]
      simp [jsLater_irrefl]
  · intro rt hl hr
    unfold resolveByTimestamp
    rw [hl, hr]
  · intro lt hl hr
    unfold resolveByTimestamp
    rw [hl, hr]
  · intro hl hr
    unfold resolveByTimestamp
    rw [hl, hr]

/-- Witness for C3: concrete bodies for the later-remote, tie, one-sided
and no-timestamp cases. -/
theorem resolver_timestamp_policy_witness :
    extractTimestamp "A 2026-01-10T14:00:00" = some (some ⟨2026, 1, 10, 14, 0, 0⟩) ∧
    extractTimestamp "B 2026-01-10T15:30:00" = some (some ⟨2026, 1, 10, 15, 30, 0⟩) ∧
    (resolveByTimestamp "A 2026-01-10T14:00:00" "B 2026-01-10T15:30:00").1 =
      Winner.remoteSide ∧
    (resolveByTimestamp "A 2026-01-10T14:00:00" "C 2026-01-10T14:00:00").1 =
      Winner.localSide ∧
    (resolveByTimestamp "no stamp" "B 2026-01-10T15:30:00").1 = Winner.remoteSide ∧
    (resolveByTimestamp "A 2026-01-10T14:00:00" "no stamp").1 = Winner.localSide ∧
    (resolveByTimestamp "no stamp" "none either").1 = Winner.localSide :=
  ⟨by decide, by decide,
   ((resolver_timestamp_policy "A 2026-01-10T14:00:00" "B 2026-01-10T15:30:00").1
      (some ⟨2026, 1, 10, 14, 0, 0⟩) (some ⟨2026, 1, 10, 15, 30, 0⟩)
      (by decide) (by decide)).1.mpr (by decide),
   ((resolver_timestamp_policy "A 2026-01-10T14:00:00" "C 2026-01-10T14:00:00").1
      (some ⟨2026, 1, 10, 14, 0, 0⟩) (some ⟨2026, 1, 10, 14, 0, 0⟩)
      (by decide) (by decide)).2 rfl,
   (resolver_timestamp_policy "no stamp" "B 2026-01-10T15:30:00").2.1
      (some ⟨2026, 1, 10, 15, 30, 0⟩) (by decide) (by decide),
   (resolver_timestamp_policy "A 2026-01-10T14:00:00" "no stamp").2.2.1
      (some ⟨2026, 1, 10, 14, 0, 0⟩) (by decide) (by decide),
   (resolver_timestamp_policy "no stamp" "none either").2.2.2 (by decide) (by decide)⟩

/-- Counterexample to C4 as stated: the resolver does not splice the
winning body into the surrounding file — on a file with text before and
after the conflict block, the resulting content is not the original with
only the marker region replaced. -/
theorem resolveFile_discards_surrounding_text :
    (resolveFile "notes.md"
      "Intro\n<<<<<<< HEAD\nA 2026-01-10T14:00:00\n=======\nB 2026-01-10T15:30:00\n>>>>>>> origin/main\nOutro").newContent ≠
      "Intro\nB 2026-01-10T15:30:00\nOutro" := by decide

/-- Claim C4 (amended): for every auto-resolved (non-critical) conflicted
file, the file content after resolution equals the winning conflict body
alone — the resolver overwrites the whole file with the winning body,
discarding any text outside the conflict-marker region — and the resolved
file is staged, with the losing body archived. -/
theorem resolveFile_writes_winner_body (relPath content lc rc : String)
    (hcrit : requiresManualResolution relPath = false)
    (hext : extractConflict content = some (lc, rc)) :
    (resolveFile relPath content).newContent =
      (if (resolveByTimestamp lc rc).1 = Winner.localSide then lc else rc) ∧
    (resolveFile relPath content).staged = true ∧
    (resolveFile relPath content).archivedLoser =
      some (if (resolveByTimestamp lc rc).1 = Winner.localSide then rc else lc) := by
  unfold resolveFile
  rw [hcrit, hext]
  simp

/-- Witness for the amended C4. -/
theorem resolveFile_writes_winner_body_witness :
    requiresManualResolution "notes.md" = false ∧
    extractConflict
      "Intro\n<<<<<<< HEAD\nA 2026-01-10T14:00:00\n=======\nB 2026-01-10T15:30:00\n>>>>>>> origin/main\nOutro" =
      some ("A 2026-01-10T14:00:00", "B 2026-01-10T15:30:00") ∧
    (resolveFile "notes.md"
      "Intro\n<<<<<<< HEAD\nA 2026-01-10T14:00:00\n=======\nB 2026-01-10T15:30:00\n>>>>>>> origin/main\nOutro").newContent =
      (if (resolveByTimestamp "A 2026-01-10T14:00:00" "B 2026-01-10T15:30:00").1 =
          Winner.localSide then "A 2026-01-10T14:00:00" else "B 2026-01-10T15:30:00") :=
  ⟨by decide, by decide,
   (resolveFile_writes_winner_body "notes.md"
      "Intro\n<<<<<<< HEAD\nA 2026-01-10T14:00:00\n=======\nB 2026-01-10T15:30:00\n>>>>>>> origin/main\nOutro"
      "A 2026-01-10T14:00:00" "B 2026-01-10T15:30:00" (by decide) (by decide)).1⟩

/-- Claim C6: for every conflicted file whose path matches a critical file,
the resolver reports that manual resolution is needed (returns false) and
leaves all state untouched: content unchanged, not staged, nothing
archived, no log entry. -/
theorem resolver_critical_untouched (relPath content : String)
    (h : requiresManualResolution relPath = true) :
    resolveFile relPath content =
      ⟨content, false, none, false, false⟩ := by
  unfold resolveFile
  rw [h]
  simp

/-- Witness for C6: the device registry, with conflict markers present. -/
theorem resolver_critical_untouched_witness :
    requiresManualResolution "sync/device-registry.json" = true ∧
    resolveFile "sync/device-registry.json"
        "<<<<<<< HEAD\n\x7b \x22a\x22: 1 \x7d\n=======\n\x7b \x22a\x22: 2 \x7d\n>>>>>>> x\n" =
      ⟨"<<<<<<< HEAD\n\x7b \x22a\x22: 1 \x7d\n=======\n\x7b \x22a\x22: 2 \x7d\n>>>>>>> x\n",
        false, none, false, false⟩ :=
  ⟨by decide,
   resolver_critical_untouched "sync/device-registry.json"
     "<<<<<<< HEAD\n\x7b \x22a\x22: 1 \x7d\n=======\n\x7b \x22a\x22: 2 \x7d\n>>>>>>> x\n" (by decide)⟩

/-! ## SessionEnd hook (Hooks/SessionEnd.ts) and the Pending Push Queue

The hook is a short-lived process; its observable effects are the exit
code, whether a commit was created, whether a push was attempted, and the
contents of `sync/pending-pushes.json`.  External command outcomes (the
redaction script run, `git status`, `git commit`, `git push`) are inputs
of the model. -/

/-- A `PendingPush` record of `pending-pushes.json`.  SessionEnd creates
records without `last_retry`; SessionStart adds it on a failed retry. -/
structure PendingPush where
  timestamp : String
  commit_hash : String
  retry_count : Nat
  error : Option String
  last_retry : Option String
deriving DecidableEq, Repr

/-- `queuePendingPush`: append a fresh record with `retry_count = 0` and
the push error to the queue read from disk. -/
def queuePendingPush (queue : List PendingPush) (now commitHash error : String) :
    List PendingPush :=
  queue ++ [⟨now, commitHash, 0, some error, none⟩]

/-- The configuration fields SessionEnd reads. -/
structure SessionEndConfig where
  sync_enabled : Bool
  on_session_end : Bool
  redact_pii : Bool
deriving DecidableEq, Repr

/-- Inputs of one SessionEnd run: configuration, file-system facts and the
outcomes of the external commands it would run. -/
structure SessionEndEnv where
  configPresent : Bool
  cfg : SessionEndConfig
  memoryDirExists : Bool
  redactScriptExists : Bool
  redactOk : Bool
  hasChanges : Bool
  commitOk : Bool
  commitHash : String
  pushOk : Bool
  pushError : String
  queue : List PendingPush
  now : String

/-- Observable effects of one SessionEnd run. -/
structure SessionEndResult where
  exitCode : Nat
  committed : Bool
  pushAttempted : Bool
  queue : List PendingPush
deriving DecidableEq, Repr

/-- `redactPII` of the hook (the process wrapper, not the text
transform): succeeds when the script is missing (skip) or when the script
exits cleanly; fails only when the script run throws. -/
def redactPIIStep (e : SessionEndEnv) : Bool :=
  !e.redactScriptExists || e.redactOk

/-- `createCommit`: `git status --short` empty means no commit; otherwise
stage, commit and read the hash (`none` on failure). -/
def createCommit (e : SessionEndEnv) : Option String :=
  if e.hasChanges && e.commitOk then some e.commitHash else none

/-- `main` of the SessionEnd hook. -/
def sessionEndMain (e : SessionEndEnv) : SessionEndResult :=
  if !e.configPresent || !e.cfg.sync_enabled then ⟨0, false, false, e.queue⟩
  else if !e.cfg.on_session_end then ⟨0, false, false, e.queue⟩
  else if !e.memoryDirExists then ⟨0, false, false, e.queue⟩
  else if e.cfg.redact_pii && !redactPIIStep e then ⟨0, false, false, e.queue⟩
  else
    match createCommit e with
    | none => ⟨0, false, false, e.queue⟩
    | some h =>
      if e.pushOk then ⟨0, true, true, e.queue⟩
      else ⟨0, true, true, queuePendingPush e.queue e.now h e.pushError⟩

/-- Claim C1: if `redact_pii` is enabled and the redaction script run
fails, SessionEnd aborts before the commit step: no commit, no push
attempt, no PendingPush enqueued, and the hook exits 0. -/
theorem session_end_redaction_failure_aborts (e : SessionEndEnv)
    (h1 : e.configPresent = true) (h2 : e.cfg.sync_enabled = true)
    (h3 : e.cfg.on_session_end = true) (h4 : e.memoryDirExists = true)
    (h5 : e.cfg.redact_pii = true) (h6 : e.redactScriptExists = true)
    (h7 : e.redactOk = false) :
    sessionEndMain e = ⟨0, false, false, e.queue⟩ := by
  unfold sessionEndMain redactPIIStep
  rw [h1, h2, h3, h4, h5, h6, h7]
  simp

/-- Witness for C1. -/
theorem session_end_redaction_failure_aborts_witness :
    sessionEndMain
      { configPresent := true, cfg := ⟨true, true, true⟩, memoryDirExists := true,
        redactScriptExists := true, redactOk := false, hasChanges := true,
        commitOk := true, commitHash := "abc123", pushOk := true,
        pushError := "", queue := [], now := "2026-01-10T16:00:00Z" } =
      ⟨0, false, false, []⟩ :=
  session_end_redaction_failure_aborts _ rfl rfl rfl rfl rfl rfl rfl

/-- Claim C8: if SessionEnd creates a commit and the push fails, exactly
one PendingPush record — with that commit hash, `retry_count = 0`, the
push error and a timestamp — is appended to the queue, and the hook exits
0. -/
theorem session_end_push_failure_queues (e : SessionEndEnv)
    (h1 : e.configPresent = true) (h2 : e.cfg.sync_enabled = true)
    (h3 : e.cfg.on_session_end = true) (h4 : e.memoryDirExists = true)
    (hred : e.cfg.redact_pii = false ∨ redactPIIStep e = true)
    (hcommit : createCommit e = some e.commitHash)
    (hpush : e.pushOk = false) :
    sessionEndMain e =
      ⟨0, true, true,
        e.queue ++ [⟨e.now, e.commitHash, 0, some e.pushError, none⟩]⟩ := by
  unfold sessionEndMain
  rw [h1, h2, h3, h4]
  have hgate : (e.cfg.redact_pii && !redactPIIStep e) = false := by
    rcases hred with h | h
    · rw [h]; rfl
    · rw [h]; simp
  rw [hgate, hcommit, hpush]
  simp [queuePendingPush]

/-- Witness for C8. -/
theorem session_end_push_failure_queues_witness :
    sessionEndMain
      { configPresent := true, cfg := ⟨true, true, true⟩, memoryDirExists := true,
        redactScriptExists := true, redactOk := true, hasChanges := true,
        commitOk := true, commitHash := "deadbee", pushOk := false,
        pushError := "network timeout", queue := [], now := "2026-01-10T16:00:00Z" } =
      ⟨0, true, true, [⟨"2026-01-10T16:00:00Z", "deadbee", 0, some "network timeout", none⟩]⟩ :=
  session_end_push_failure_queues _ rfl rfl rfl rfl (Or.inr rfl) rfl rfl

/-- `retryPendingPushes` of SessionStart.ts (the `drain()` of the queue):
walks the queue in order; entries with `retry_count >= 3` are kept
verbatim with no push attempt; otherwise one `git push` is attempted —
success drops the entry, failure increments `retry_count`, sets
`last_retry` and the error, and keeps it.  `pushOk`/`errAt` give the
outcome and error message of the `n`-th attempted push of this call, `i`
counts attempts made so far; the second component of the result is the
total attempt count. -/
def retryPendingPushes (pushOk : Nat → Bool) (errAt : Nat → String) (now : String) :
    Nat → List PendingPush → List PendingPush × Nat
  | i, [] => ([], i)
  | i, p :: rest =>
    if 3 ≤ p.retry_count then
      let r := retryPendingPushes pushOk errAt now i rest
      (p :: r.1, r.2)
    else if pushOk i then
      retryPendingPushes pushOk errAt now (i + 1) rest
    else
      let r := retryPendingPushes pushOk errAt now (i + 1) rest
      ({ p with
          retry_count := p.retry_count + 1
          last_retry := some now
          error := some (errAt i) } :: r.1, r.2)

/-- Claim C7: queue bound invariant.  Enqueue creates entries with
`retry_count = 0`; drain preserves `retry_count ≤ 3` (counts are `Nat`, so
`0 ≤ retry_count` holds by construction), increments a failing entry by
exactly one, makes exactly one push attempt per entry with
`retry_count < 3` and none for the others, and never removes an entry
whose `retry_count` has reached 3. -/
theorem queue_bound_invariant (pushOk : Nat → Bool) (errAt : Nat → String) (now : String) :
    (∀ (q : List PendingPush) (ts h err : String) (p : PendingPush),
      p ∈ queuePendingPush q ts h err → p ∈ q ∨ p.retry_count = 0) ∧
    (∀ (i : Nat) (q : List PendingPush), (∀ p ∈ q, p.retry_count ≤ 3) →
      ∀ p ∈ (retryPendingPushes pushOk errAt now i q).1, p.retry_count ≤ 3) ∧
    (∀ (i : Nat) (q : List PendingPush) (p : PendingPush),
      p ∈ (retryPendingPushes pushOk errAt now i q).1 →
      p ∈ q ∨ ∃ p0 ∈ q, p.retry_count = p0.retry_count + 1) ∧
    (∀ (i : Nat) (q : List PendingPush) (p : PendingPush),
      p ∈ q → 3 ≤ p.retry_count →
      p ∈ (retryPendingPushes pushOk errAt now i q).1) ∧
    (∀ (i : Nat) (q : List PendingPush),
      (retryPendingPushes pushOk errAt now i q).2 =
        i + (q.filter (fun p => p.retry_count < 3)).length) := by
  refine ⟨?_, ?_, ?_, ?_, ?_⟩
  · intro q ts h err p hp
    rcases List.mem_append.mp hp with hm | hm
    · exact Or.inl hm
    · right
      rcases List.mem_singleton.mp hm with rfl
      rfl
  · intro i q
    induction q generalizing i with
    | nil => intro _ p hp; simp [retryPendingPushes] at hp
    | cons p0 rest ih =>
      intro hbound p hp
      by_cases h3 : 3 ≤ p0.retry_count
      · simp only [retryPendingPushes, if_pos h3] at hp
        rcases List.mem_cons.mp hp with rfl | hm
        · exact hbound p (List.mem_cons_self _ _)
        · exact ih i (fun x hx => hbound x (List.mem_cons_of_mem _ hx)) p hm
      · cases hok : pushOk i with
        | true =>
          simp only [retryPendingPushes, if_neg h3, hok, if_true] at hp
          exact ih (i + 1) (fun x hx => hbound x (List.mem_cons_of_mem _ hx)) p hp
        | false =>
          simp only [retryPendingPushes, if_neg h3, hok, Bool.false_eq_true,
            if_false] at hp
          rcases List.mem_cons.mp hp with rfl | hm
          · simp only
            omega
          · exact ih (i + 1) (fun x hx => hbound x (List.mem_cons_of_mem _ hx)) p hm
  · intro i q
    induction q generalizing i with
    | nil => intro p hp; simp [retryPendingPushes] at hp
    | cons p0 rest ih =>
      intro p hp
      by_cases h3 : 3 ≤ p0.retry_count
      · simp only [retryPendingPushes, if_pos h3] at hp
        rcases List.mem_cons.mp hp with rfl | hm
        · exact Or.inl (List.mem_cons_self _ _)
        · rcases ih i p hm with hm' | ⟨p0', hp0', he⟩
          · exact Or.inl (List.mem_cons_of_mem _ hm')
          · exact Or.inr ⟨p0', List.mem_cons_of_mem _ hp0', he⟩
      · cases hok : pushOk i with
        | true =>
          simp only [retryPendingPushes, if_neg h3, hok, if_true] at hp
          rcases ih (i + 1) p hp with hm' | ⟨p0', hp0', he⟩
          · exact Or.inl (List.mem_cons_of_mem _ hm')
          · exact Or.inr ⟨p0', List.mem_cons_of_mem _ hp0', he⟩
        | false =>
          simp only [retryPendingPushes, if_neg h3, hok, Bool.false_eq_true,
            if_false] at hp
          rcases List.mem_cons.mp hp with rfl | hm
          · exact Or.inr ⟨p0, List.mem_cons_self _ _, rfl⟩
          · rcases ih (i + 1) p hm with hm' | ⟨p0', hp0', he⟩
            · exact Or.inl (List.mem_cons_of_mem _ hm')
            · exact Or.inr ⟨p0', List.mem_cons_of_mem _ hp0', he⟩
  · intro i q
    induction q generalizing i with
    | nil => intro p hp; simp at hp
    | cons p0 rest ih =>
      intro p hp h3p
      rcases List.mem_cons.mp hp with rfl | hm
      · simp only [retryPendingPushes, if_pos h3p]
        exact List.mem_cons_self _ _
      · by_cases h3 : 3 ≤ p0.retry_count
        · simp only [retryPendingPushes, if_pos h3]
          exact List.mem_cons_of_mem _ (ih i p hm h3p)
        · cases hok : pushOk i with
          | true =>
            simp only [retryPendingPushes, if_neg h3, hok, if_true]
            exact ih (i + 1) p hm h3p
          | false =>
            simp only [retryPendingPushes, if_neg h3, hok, Bool.false_eq_true,
              if_false]
            exact List.mem_cons_of_mem _ (ih (i + 1) p hm h3p)
  · intro i q
    induction q generalizing i with
    | nil => simp [retryPendingPushes]
    | cons p0 rest ih =>
      by_cases h3 : 3 ≤ p0.retry_count
      · have hf : ¬ p0.retry_count < 3 := by omega
        simp only [retryPendingPushes, if_pos h3, List.filter_cons,
          decide_eq_true_eq]
        rw [if_neg hf]
        exact ih i
      · have hf : p0.retry_count < 3 := by omega
        cases hok : pushOk i with
        | true =>
          simp only [retryPendingPushes, if_neg h3, hok, if_true, List.filter_cons,
            decide_eq_true_eq]
          rw [if_pos hf, ih (i + 1), List.length_cons]
          omega
        | false =>
          simp only [retryPendingPushes, if_neg h3, hok, Bool.false_eq_true,
            if_false, List.filter_cons, decide_eq_true_eq]
          rw [if_pos hf, ih (i + 1), List.length_cons]
          omega

/-- Witness for C7 on a concrete queue: a maxed-out entry is kept
untouched, a failing entry is incremented to 2 (within the bound), the
call makes exactly one attempt, and enqueue appends a zero-count record. -/
theorem queue_bound_invariant_witness :
    (⟨"t1", "h1", 3, none, none⟩ : PendingPush) ∈
      (retryPendingPushes (fun _ => false) (fun _ => "net") "T" 0
        [⟨"t1", "h1", 3, none, none⟩, ⟨"t2", "h2", 1, none, none⟩]).1 ∧
    (⟨"t2", "h2", 2, some "net", some "T"⟩ : PendingPush).retry_count ≤ 3 ∧
    (retryPendingPushes (fun _ => false) (fun _ => "net") "T" 0
      [⟨"t1", "h1", 3, none, none⟩, ⟨"t2", "h2", 1, none, none⟩]).2 =
      0 + ([⟨"t1", "h1", 3, none, none⟩,
        (⟨"t2", "h2", 1, none, none⟩ : PendingPush)].filter
          (fun p => p.retry_count < 3)).length ∧
    ((⟨"t3", "h3", 0, some "e", none⟩ : PendingPush) ∈
        ([] : List PendingPush) ∨
      (⟨"t3", "h3", 0, some "e", none⟩ : PendingPush).retry_count = 0) :=
  ⟨(queue_bound_invariant (fun _ => false) (fun _ => "net") "T").2.2.2.1 0
      [⟨"t1", "h1", 3, none, none⟩, ⟨"t2", "h2", 1, none, none⟩]
      ⟨"t1", "h1", 3, none, none⟩ (by decide) (by decide),
   (queue_bound_invariant (fun _ => false) (fun _ => "net") "T").2.1 0
      [⟨"t1", "h1", 3, none, none⟩, ⟨"t2", "h2", 1, none, none⟩] (by decide)
      ⟨"t2", "h2", 2, some "net", some "T"⟩ (by decide),
   (queue_bound_invariant (fun _ => false) (fun _ => "net") "T").2.2.2.2 0
      [⟨"t1", "h1", 3, none, none⟩, ⟨"t2", "h2", 1, none, none⟩],
   (queue_bound_invariant (fun _ => false) (fun _ => "net") "T").1 [] "t3" "h3" "e"
      ⟨"t3", "h3", 0, some "e", none⟩ (by decide)⟩

/-! ## SessionStart hook (Hooks/SessionStart.ts)

The hook pulls, then retries pending pushes, then updates the device
registry.  The observable trace records which sub-operations run; the
conflict-resolution script (Scripts/resolve-conflicts.ts) is a standalone
program and `main` contains no call to it, so no run of the hook can emit
a resolver action. -/

inductive StartAction
  | pullA
  | resolveConflictsA
  | drainQueueA
  | updateRegistryA
deriving DecidableEq, Repr

/-- Outcome of the `git pull --rebase` invocation. -/
inductive PullOutcome
  | ok
  | timeoutErr
  | gitErr
  | otherErr
deriving DecidableEq, Repr

/-- `pullFromCloud`: success unless the pull succeeded but `git status`
shows `UU`/`AA` conflict lines; every error path reports offline-mode
success so the session is never blocked. -/
def pullFromCloud (outcome : PullOutcome) (statusConflict : Bool) : Bool × String :=
  match outcome with
  | PullOutcome.ok =>
    if statusConflict then (false, "Conflicts detected - see git status")
    else (true, "Synced with cloud")
  | PullOutcome.timeoutErr => (true, "Offline mode - sync skipped")
  | PullOutcome.gitErr => (true, "Offline mode - git error")
  | PullOutcome.otherErr => (true, "Offline mode - error during pull")

structure SessionStartEnv where
  configPresent : Bool
  sync_enabled : Bool
  on_session_start : Bool
  deviceNameSet : Bool
  memoryDirExists : Bool
  pullOutcome : PullOutcome
  statusConflict : Bool
deriving DecidableEq, Repr

structure SessionStartResult where
  exitCode : Nat
  pullMessage : String
  actions : List StartAction
deriving DecidableEq, Repr

/-- `main` of the SessionStart hook: after a failed pull result the hook
only logs the message as a warning, then unconditionally retries pending
pushes and (when a device name is configured) updates the registry. -/
def sessionStartMain (e : SessionStartEnv) : SessionStartResult :=
  if !e.configPresent || !e.sync_enabled then ⟨0, "", []⟩
  else if !e.on_session_start then ⟨0, "", []⟩
  else if !e.memoryDirExists then ⟨0, "", []⟩
  else
    let pr := pullFromCloud e.pullOutcome e.statusConflict
    ⟨0, pr.2,
      [StartAction.pullA, StartAction.drainQueueA] ++
        (if e.deviceNameSet then [StartAction.updateRegistryA] else [])⟩

/-- Claim C5 shows a code bug: on a pull that leaves conflict markers, the
hook reports the conflict message and continues with the queue drain and
the registry update (those parts of the claim hold), but it never invokes
the Conflict Resolver on any file — `resolveConflictsA` is absent from the
action trace, contrary to the spec and to the repository docs
(README hook flow step 3, VERIFY.md test 4.1). -/
theorem session_start_conflict_no_resolver :
    sessionStartMain
      { configPresent := true, sync_enabled := true, on_session_start := true,
        deviceNameSet := true, memoryDirExists := true,
        pullOutcome := PullOutcome.ok, statusConflict := true } =
      ⟨0, "Conflicts detected - see git status",
        [StartAction.pullA, StartAction.drainQueueA, StartAction.updateRegistryA]⟩ ∧
    StartAction.resolveConflictsA ∉
      (sessionStartMain
        { configPresent := true, sync_enabled := true, on_session_start := true,
          deviceNameSet := true, memoryDirExists := true,
          pullOutcome := PullOutcome.ok, statusConflict := true }).actions ∧
    StartAction.drainQueueA ∈
      (sessionStartMain
        { configPresent := true, sync_enabled := true, on_session_start := true,
          deviceNameSet := true, memoryDirExists := true,
          pullOutcome := PullOutcome.ok, statusConflict := true }).actions ∧
    StartAction.updateRegistryA ∈
      (sessionStartMain
        { configPresent := true, sync_enabled := true, on_session_start := true,
          deviceNameSet := true, memoryDirExists := true,
          pullOutcome := PullOutcome.ok, statusConflict := true }).actions :=
  ⟨by decide, by decide, by decide, by decide⟩
